import Mathlib

/-
Verification of the rendering core of meme-cli (memeinator/src/lib.rs).

Modelling conventions:
* `f32` values are modelled as rationals (`ℚ`).  Every float computation the
  theorems below depend on is exact in IEEE `f32` arithmetic as well: the
  zero-coverage blend path `(1 - 0) * (n / 255) + 0 * c` followed by `* 255`
  and a truncating cast returns `n` exactly for every byte `n` (checked for
  all 256 byte values), and the fit-search loop only adds, halves and
  compares.
* `u32` values are modelled as `ℕ` with wrap-around (`% 2^32`) where the
  source's release-mode overflow semantics apply.
* Calls into the external `fontdue` and `image` crates are abstracted as
  explicit function parameters (oracles); everything written in this
  repository is translated directly.
-/

/-- The `u32` modulus. -/
def u32Mod : ℕ := 4294967296

/-- Wrapping (release-mode) `u32` addition result, applied to a `ℕ` sum. -/
def wrap32 (n : ℕ) : ℕ := n % u32Mod

/-- Wrapping (release-mode) `u32` subtraction `a - b` for `a b < 2^32`. -/
def u32sub (a b : ℕ) : ℕ := (a + (u32Mod - b % u32Mod)) % u32Mod

/-- One RGBA pixel: four 8-bit channels (`image::Rgba<u8>`), each kept as a
`ℕ` that a well-formed image bounds by 255. -/
structure Rgba where
  r : ℕ
  g : ℕ
  b : ℕ
  a : ℕ
deriving DecidableEq, Repr

/-- An `image::RgbaImage`: dimensions plus the pixel lookup
(`get_pixel`). -/
structure RgbaImage where
  width : ℕ
  height : ℕ
  pix : ℕ → ℕ → Rgba

/-- An `image::GrayImage` coverage mask: each pixel is one 8-bit coverage
byte. -/
structure GrayImage where
  width : ℕ
  height : ℕ
  pix : ℕ → ℕ → ℕ

/-- A `[f32; 4]` RGBA color, channels normalized to `[0,1]` floats. -/
structure ColorF where
  r : ℚ
  g : ℚ
  b : ℚ
  a : ℚ
deriving DecidableEq, Repr

/-- `image::RgbaImage::put_pixel`: replace the pixel at `(x, y)`. -/
def putPixel (img : RgbaImage) (x y : ℕ) (p : Rgba) : RgbaImage :=
  RgbaImage.mk img.width img.height
    (fun u v => if u = x ∧ v = y then p else img.pix u v)

/-- Rust's saturating-truncating `as u8` cast applied to an `f32`: truncate
toward zero, clamp into `[0, 255]`. -/
def toU8 (x : ℚ) : ℕ := (min 255 ⌊x⌋).toNat

/-- The per-channel blend `(1. - mask) * a + mask * b` from
`simple_overlay`. -/
def blendChannel (cov base colr : ℚ) : ℚ := (1 - cov) * base + cov * colr

/-- Blend one channel the way `simple_overlay`'s pipeline does: normalize the
8-bit base channel, blend with the color channel, scale back by 255 and cast
with `as u8`. -/
def blendByte (cov : ℚ) (base : ℕ) (colr : ℚ) : ℕ :=
  toU8 (blendChannel cov ((base : ℚ) / 255) colr * 255)

/-- The body of `simple_overlay`'s double loop for one mask coordinate
`(x, y)`: compute the wrapped target coordinate, and if it lies inside the
base image blend the masked color over the previous pixel. -/
def overlayAt (img : RgbaImage) (mask : GrayImage) (color : ColorF)
    (pos : ℕ × ℕ) (x y : ℕ) : RgbaImage :=
  let cov : ℚ := (mask.pix x y : ℚ) / 255
  let tx := wrap32 (pos.1 + x)
  let ty := wrap32 (pos.2 + y)
  if tx < img.width ∧ ty < img.height then
    let prev := img.pix tx ty
    putPixel img tx ty
      (Rgba.mk (blendByte cov prev.r color.r) (blendByte cov prev.g color.g)
        (blendByte cov prev.b color.b) (blendByte cov prev.a color.a))
  else img

/-- `simple_overlay(image, mask, color, pos)`: for every mask pixel, blend
`color` over the base image at `pos + (x, y)`, silently clipping
out-of-bounds targets. The source iterates `x` in the outer loop and `y` in
the inner loop. -/
def simpleOverlay (img : RgbaImage) (mask : GrayImage) (color : ColorF)
    (pos : ℕ × ℕ) : RgbaImage :=
  (List.range mask.width).foldl
    (fun im x =>
      (List.range mask.height).foldl
        (fun im2 y => overlayAt im2 mask color pos x y) im)
    img

/-- A well-formed image has 8-bit channel values. -/
def RgbaImage.wf (img : RgbaImage) : Prop :=
  ∀ x y, (img.pix x y).r ≤ 255 ∧ (img.pix x y).g ≤ 255 ∧
    (img.pix x y).b ≤ 255 ∧ (img.pix x y).a ≤ 255

/-- Rust's `str::split` with a `char`-predicate pattern: the fragments
between occurrences of matching characters. Splitting the empty string
yields one empty fragment, and every matching character ends a fragment, so
consecutive, leading or trailing matches contribute empty fragments. -/
def rustSplit (p : Char → Bool) : List Char → List (List Char)
  | [] => [[]]
  | c :: rest =>
    if p c then [] :: rustSplit p rest
    else
      match rustSplit p rest with
      | [] => [[c]]
      | f :: fs => (c :: f) :: fs

/-- The `abs_max_lines` bound of `get_filling_glyphs`:
`text.split(char::is_whitespace).count()`. `Char.isWhitespace` models
`char::is_whitespace` (they agree on the ASCII whitespace the claims
exercise). -/
def absMaxLines (text : List Char) : ℕ :=
  (rustSplit Char.isWhitespace text).length

/-- Modelled from the spec: the number of whitespace-separated tokens of a
text, a token being a maximal non-empty run of non-whitespace characters.
The fold carries (tokens counted so far, currently inside a token). -/
def specTokenCount (text : List Char) : ℕ :=
  (text.foldl
    (fun (st : ℕ × Bool) c =>
      if Char.isWhitespace c then (st.1, false)
      else if st.2 then st else (st.1 + 1, true))
    (0, false)).1

/-- Abstraction of the `fontdue::layout::Layout` state after `reset` with
the box settings of `get_filling_glyphs` and `append` of the text at a
candidate px size: `lines c` is `layout.lines()` and `height c` is
`layout.height()` at size `c`. The box width only enters through this
oracle. -/
structure LayoutOracle where
  lines : ℚ → ℕ
  height : ℚ → ℚ

/-- The mutable bracket of `get_filling_glyphs`: local variables `min` and
`max`. -/
structure FitState where
  min : ℚ
  max : ℚ
deriving DecidableEq, Repr

/-- The candidate px size of one loop iteration: `min + max / 2.`. This is
the size handed to `layout.append`. -/
def fitCandidate (s : FitState) : ℚ := s.min + s.max / 2

/-- The oversize test `layout.lines() > abs_max_lines || layout.height() >
max_height`. -/
def fitTooBig (L : LayoutOracle) (absMax : ℕ) (maxHeight c : ℚ) : Prop :=
  absMax < L.lines c ∨ maxHeight < L.height c

instance (L : LayoutOracle) (absMax : ℕ) (maxHeight c : ℚ) :
    Decidable (fitTooBig L absMax maxHeight c) :=
  inferInstanceAs (Decidable (_ ∨ _))

/-- One iteration of the `loop` in `get_filling_glyphs`: either the loop
continues with an updated bracket (`Sum.inl`), or it breaks returning the
layout at the current candidate, recorded as that candidate's px size
(`Sum.inr`). -/
def fitStep (L : LayoutOracle) (absMax : ℕ) (maxHeight : ℚ) (s : FitState) :
    FitState ⊕ ℚ :=
  let c := fitCandidate s
  if fitTooBig L absMax maxHeight c then Sum.inl (FitState.mk s.min c)
  else if s.min - s.max ≤ 1 / 4 then Sum.inr c
  else Sum.inl (FitState.mk c s.max)

/-- Run the loop of `get_filling_glyphs` for at most `fuel` iterations; on
a break, return the bracket state at the break together with the returned
candidate size. -/
def fitSearchSt (L : LayoutOracle) (absMax : ℕ) (maxHeight : ℚ) :
    ℕ → FitState → Option (FitState × ℚ)
  | 0, _ => none
  | fuel + 1, s =>
    match fitStep L absMax maxHeight s with
    | Sum.inl t => fitSearchSt L absMax maxHeight fuel t
    | Sum.inr c => some (s, c)

/-- The bracket state at the start of iteration `n` of the loop (counting
from 0), if the loop is still running then. -/
def fitStates (L : LayoutOracle) (absMax : ℕ) (maxHeight : ℚ) (s : FitState) :
    ℕ → Option FitState
  | 0 => some s
  | n + 1 =>
    match fitStates L absMax maxHeight s n with
    | some t =>
      match fitStep L absMax maxHeight t with
      | Sum.inl u => some u
      | Sum.inr _ => none
    | none => none

/-- Embedding of `get_filling_glyphs(size, font, layout, min_font_size,
max_font_size, text)`: the px size at which the returned glyphs were laid
out, or `none` if the loop has not returned within `fuel` iterations. The
box height `size.1` enters the oversize test directly; font and box width
are absorbed into the oracle `L`. -/
def getFillingGlyphs (L : LayoutOracle) (size : ℕ × ℕ)
    (minFontSize maxFontSize : ℚ) (text : List Char) (fuel : ℕ) : Option ℚ :=
  (fitSearchSt L (absMaxLines text) (size.2 : ℚ) fuel
    (FitState.mk minFontSize maxFontSize)).map Prod.snd

/-- The sequence of `max` values of the loop when every candidate so far was
oversize and `min` stays at 5: `maxSeq M 0 = M` and each oversize iteration
sets `max` to the candidate `5 + max / 2`. `maxSeq M (n+1)` is also the
candidate tried at iteration `n`. -/
def maxSeq (M : ℚ) : ℕ → ℚ
  | 0 => M
  | n + 1 => 5 + maxSeq M n / 2

/-- One text slot of `config.json` (`MemeText`): `min`/`max` corner in
pixel coordinates, each a `u32` pair. -/
structure MemeText where
  min : ℕ × ℕ
  max : ℕ × ℕ

/-- A template's `MemeConfig`: optional text color and the slot list. -/
structure MemeConfig where
  color : Option ColorF
  text : List MemeText

/-- The fallback color `[0., 0., 0., 1.]` of `unwrap_or` at every overlay
call site. -/
def defaultColor : ColorF := ColorF.mk 0 0 0 1

/-- The box passed to `render_text`: `(bb.max.0 - bb.min.0, bb.max.1 -
bb.min.1)` with `u32` subtraction. -/
def slotDims (bb : MemeText) : ℕ × ℕ :=
  (u32sub bb.max.1 bb.min.1, u32sub bb.max.2 bb.min.2)

structure SimpleMemeTemplate where
  image : RgbaImage
  config : MemeConfig

structure AnimatedMemeTemplate where
  frames : List RgbaImage
  config : MemeConfig

/-- Embedding of `SimpleMemeTemplate::render`. `renderText` abstracts
`render_text` (its output depends on the box dims and the text; font, cache
and max font size are fixed per call), `renderWatermark` abstracts
`render_watermark` (depending on the image dims and the message; config is
fixed), returning the watermark strip and its vertical position. -/
def SimpleMemeTemplate.render (tpl : SimpleMemeTemplate)
    (renderText : ℕ × ℕ → List Char → GrayImage)
    (renderWatermark : ℕ × ℕ → List Char → GrayImage × ℕ)
    (texts : List (List Char)) (watermarkMsg : Option (List Char)) :
    RgbaImage :=
  let afterText := (texts.zip tpl.config.text).foldl
    (fun img tb =>
      simpleOverlay img (renderText (slotDims tb.2) tb.1)
        (tpl.config.color.getD defaultColor) tb.2.min)
    tpl.image
  match watermarkMsg with
  | some w =>
    let wp := renderWatermark (afterText.width, afterText.height) w
    simpleOverlay afterText wp.1 (tpl.config.color.getD defaultColor)
      (0, wp.2)
  | none => afterText

/-- `SimpleMemeTemplate::render` with the blend color made explicit at every
overlay call site (the spec's view of a fixed text color). -/
def SimpleMemeTemplate.renderWithColor (tpl : SimpleMemeTemplate)
    (renderText : ℕ × ℕ → List Char → GrayImage)
    (renderWatermark : ℕ × ℕ → List Char → GrayImage × ℕ)
    (color : ColorF) (texts : List (List Char))
    (watermarkMsg : Option (List Char)) : RgbaImage :=
  let afterText := (texts.zip tpl.config.text).foldl
    (fun img tb =>
      simpleOverlay img (renderText (slotDims tb.2) tb.1) color tb.2.min)
    tpl.image
  match watermarkMsg with
  | some w =>
    let wp := renderWatermark (afterText.width, afterText.height) w
    simpleOverlay afterText wp.1 color (0, wp.2)
  | none => afterText

/-- The dims of `self.frames[0].buffer()` used for the watermark of an
animated render. The source indexes `frames[0]` unguarded (it panics on an
empty frame list); the empty case only arises for a frameless gif and never
affects the claims, so it is given the degenerate dims `(0, 0)` here. -/
def framesDims : List RgbaImage → ℕ × ℕ
  | [] => (0, 0)
  | f :: _ => (f.width, f.height)

/-- Embedding of `AnimatedMemeTemplate::render`: the text masks (and the
optional watermark) are computed once, before the frame loop, and overlaid
onto every frame. -/
def AnimatedMemeTemplate.render (tpl : AnimatedMemeTemplate)
    (renderText : ℕ × ℕ → List Char → GrayImage)
    (renderWatermark : ℕ × ℕ → List Char → GrayImage × ℕ)
    (texts : List (List Char)) (watermarkMsg : Option (List Char)) :
    List RgbaImage :=
  let masks := (texts.zip tpl.config.text).map
    (fun tb => (renderText (slotDims tb.2) tb.1, tb.2.min))
  let wmk := watermarkMsg.map (renderWatermark (framesDims tpl.frames))
  tpl.frames.map (fun fr =>
    let fr1 := masks.foldl
      (fun img mp =>
        simpleOverlay img mp.1 (tpl.config.color.getD defaultColor) mp.2)
      fr
    match wmk with
    | some wp =>
      simpleOverlay fr1 wp.1 (tpl.config.color.getD defaultColor) (0, wp.2)
    | none => fr1)

/-- The spec's per-frame reference behavior for an animated render: re-run
the whole text pass (Fit-Search and rasterization) independently for every
frame. -/
def AnimatedMemeTemplate.renderPerFrame (tpl : AnimatedMemeTemplate)
    (renderText : ℕ × ℕ → List Char → GrayImage)
    (renderWatermark : ℕ × ℕ → List Char → GrayImage × ℕ)
    (texts : List (List Char)) (watermarkMsg : Option (List Char)) :
    List RgbaImage :=
  let wmk := watermarkMsg.map (renderWatermark (framesDims tpl.frames))
  tpl.frames.map (fun fr =>
    let masks := (texts.zip tpl.config.text).map
      (fun tb => (renderText (slotDims tb.2) tb.1, tb.2.min))
    let fr1 := masks.foldl
      (fun img mp =>
        simpleOverlay img mp.1 (tpl.config.color.getD defaultColor) mp.2)
      fr
    match wmk with
    | some wp =>
      simpleOverlay fr1 wp.1 (tpl.config.color.getD defaultColor) (0, wp.2)
    | none => fr1)

/-- `AnimatedMemeTemplate::render` with the blend color made explicit at
every overlay call site. -/
def AnimatedMemeTemplate.renderWithColor (tpl : AnimatedMemeTemplate)
    (renderText : ℕ × ℕ → List Char → GrayImage)
    (renderWatermark : ℕ × ℕ → List Char → GrayImage × ℕ)
    (color : ColorF) (texts : List (List Char))
    (watermarkMsg : Option (List Char)) : List RgbaImage :=
  let masks := (texts.zip tpl.config.text).map
    (fun tb => (renderText (slotDims tb.2) tb.1, tb.2.min))
  let wmk := watermarkMsg.map (renderWatermark (framesDims tpl.frames))
  tpl.frames.map (fun fr =>
    let fr1 := masks.foldl
      (fun img mp => simpleOverlay img mp.1 color mp.2)
      fr
    match wmk with
    | some wp => simpleOverlay fr1 wp.1 color (0, wp.2)
    | none => fr1)

/-- A layout oracle of a roomy box: the text lays out as one line of height
1 at every candidate size. -/
def oracleFits : LayoutOracle := LayoutOracle.mk (fun _ => 1) (fun _ => 1)

/-- A layout oracle of nonempty text: a laid-out line has height 10 at
every candidate size, so nothing ever fits a zero-height box. -/
def oracleTall : LayoutOracle := LayoutOracle.mk (fun _ => 1) (fun _ => 10)

/-- A concrete 2 x 2 base image. -/
def cimg : RgbaImage := RgbaImage.mk 2 2 (fun _ _ => Rgba.mk 10 20 30 255)

/-- A concrete 3 x 3 fully-covering mask. -/
def cmaskFull : GrayImage := GrayImage.mk 3 3 (fun _ _ => 255)

/-- A concrete 3 x 3 all-zero mask. -/
def cmaskZero : GrayImage := GrayImage.mk 3 3 (fun _ _ => 0)

/-- A concrete slot covering the top-left 2 x 2 corner. -/
def cslot : MemeText := MemeText.mk (0, 0) (2, 2)

/-- A concrete simple template with no configured color. -/
def cstpl : SimpleMemeTemplate :=
  SimpleMemeTemplate.mk cimg (MemeConfig.mk none [cslot])

/-- A concrete animated template with no configured color. -/
def catpl : AnimatedMemeTemplate :=
  AnimatedMemeTemplate.mk [cimg, cimg] (MemeConfig.mk none [cslot])

/-- A concrete stand-in for `render_text`: a fully covering 1 x 1 mask. -/
def crt : ℕ × ℕ → List Char → GrayImage :=
  fun _ _ => GrayImage.mk 1 1 (fun _ _ => 255)

/-- A concrete stand-in for `render_watermark`. -/
def crw : ℕ × ℕ → List Char → GrayImage × ℕ :=
  fun _ _ => (GrayImage.mk 1 1 (fun _ _ => 255), 1)

theorem foldl_preserve {α β : Type _} (Q : α → Prop) (f : α → β → α)
    (h : ∀ a b, Q a → Q (f a b)) : ∀ (l : List β) (a : α), Q a → Q (l.foldl f a) := by
  intro l
  induction l with
  | nil => intro a ha; exact ha
  | cons b t ih => intro a ha; exact ih (f a b) (h a b ha)

theorem fitStep_too_big {L : LayoutOracle} {a : ℕ} {mh : ℚ} {s : FitState}
    (h : fitTooBig L a mh (fitCandidate s)) :
    fitStep L a mh s = Sum.inl (FitState.mk s.min (fitCandidate s)) := by
  simp [fitStep, h]

theorem fitStep_break {L : LayoutOracle} {a : ℕ} {mh : ℚ} {s : FitState}
    (h1 : ¬ fitTooBig L a mh (fitCandidate s)) (h2 : s.min - s.max ≤ 1 / 4) :
    fitStep L a mh s = Sum.inr (fitCandidate s) := by
  simp only [fitStep]
  rw [if_neg h1, if_pos h2]

theorem fitSearchSt_succ_inl {L : LayoutOracle} {a : ℕ} {mh : ℚ}
    {s t : FitState} (fuel : ℕ) (h : fitStep L a mh s = Sum.inl t) :
    fitSearchSt L a mh (fuel + 1) s = fitSearchSt L a mh fuel t := by
  simp [fitSearchSt, h]

theorem fitSearchSt_succ_inr {L : LayoutOracle} {a : ℕ} {mh : ℚ}
    {s : FitState} {c : ℚ} (fuel : ℕ) (h : fitStep L a mh s = Sum.inr c) :
    fitSearchSt L a mh (fuel + 1) s = some (s, c) := by
  simp [fitSearchSt, h]

theorem fitSearchSt_inv (L : LayoutOracle) (a : ℕ) (mh B : ℚ) (hB : 10 ≤ B) :
    ∀ (fuel : ℕ) (s : FitState) (p : FitState × ℚ),
      s.min = 5 → 5 ≤ s.max → s.max ≤ B →
      fitSearchSt L a mh fuel s = some p →
      p.1.min = 5 ∧ 5 ≤ p.1.max ∧ p.1.max ≤ B ∧ p.2 = 5 + p.1.max / 2 := by
  intro fuel
  induction fuel with
  | zero =>
    intro s p _ _ _ h
    simp [fitSearchSt] at h
  | succ n ih =>
    intro s p hmin hge hle h
    by_cases h1 : fitTooBig L a mh (fitCandidate s)
    · rw [fitSearchSt_succ_inl n (fitStep_too_big h1)] at h
      have hc : fitCandidate s = 5 + s.max / 2 := by
        simp [fitCandidate, hmin]
      refine ih (FitState.mk s.min (fitCandidate s)) p hmin ?_ ?_ h
      · show 5 ≤ fitCandidate s
        rw [hc]; linarith
      · show fitCandidate s ≤ B
        rw [hc]; linarith
    · have h2 : s.min - s.max ≤ 1 / 4 := by rw [hmin]; linarith
      rw [fitSearchSt_succ_inr n (fitStep_break h1 h2)] at h
      injection h with h
      subst h
      refine ⟨hmin, hge, hle, ?_⟩
      simp [fitCandidate, hmin]

theorem fitStates_inv (L : LayoutOracle) (a : ℕ) (mh : ℚ) :
    ∀ (n : ℕ) (s t : FitState), s.min = 5 → 5 ≤ s.max →
      fitStates L a mh s n = some t → t.min = 5 ∧ 5 ≤ t.max := by
  intro n
  induction n with
  | zero =>
    intro s t h1 h2 h
    simp [fitStates] at h
    subst h
    exact ⟨h1, h2⟩
  | succ n ih =>
    intro s t h1 h2 h
    simp only [fitStates] at h
    cases hst : fitStates L a mh s n with
    | none => rw [hst] at h; simp at h
    | some u =>
      rw [hst] at h
      dsimp only at h
      obtain ⟨hu1, hu2⟩ := ih s u h1 h2 hst
      by_cases hb : fitTooBig L a mh (fitCandidate u)
      · rw [fitStep_too_big hb] at h
        simp at h
        subst h
        refine ⟨hu1, ?_⟩
        show 5 ≤ fitCandidate u
        simp only [fitCandidate, hu1]
        linarith
      · have h2' : u.min - u.max ≤ 1 / 4 := by rw [hu1]; linarith
        rw [fitStep_break hb h2'] at h
        simp at h

theorem fitSearchSt_none_of_all_too_big (L : LayoutOracle) (a : ℕ) (mh : ℚ)
    (hall : ∀ c, fitTooBig L a mh c) :
    ∀ (fuel : ℕ) (s : FitState), fitSearchSt L a mh fuel s = none := by
  intro fuel
  induction fuel with
  | zero => intro s; rfl
  | succ n ih =>
    intro s
    rw [fitSearchSt_succ_inl n (fitStep_too_big (hall (fitCandidate s)))]
    exact ih _

theorem maxSeq_shift (M : ℚ) : ∀ k, maxSeq (maxSeq M 1) k = maxSeq M (k + 1) := by
  intro k
  induction k with
  | zero => rfl
  | succ k ih => simp only [maxSeq] at ih ⊢; rw [ih]

theorem maxSeq_gt_five (M : ℚ) (hM : 5 < M) : ∀ n, 5 < maxSeq M n := by
  intro n
  induction n with
  | zero => exact hM
  | succ n ih => simp only [maxSeq]; linarith

theorem fitSearchSt_first_fit (L : LayoutOracle) (a : ℕ) (mh : ℚ) :
    ∀ (n : ℕ) (M : ℚ), 5 < M →
      (∀ m, m < n → fitTooBig L a mh (maxSeq M (m + 1))) →
      ¬ fitTooBig L a mh (maxSeq M (n + 1)) →
      fitSearchSt L a mh (n + 1) (FitState.mk 5 M) =
        some (FitState.mk 5 (maxSeq M n), maxSeq M (n + 1)) := by
  intro n
  induction n with
  | zero =>
    intro M hM _ hfit
    have hc : fitCandidate (FitState.mk 5 M) = maxSeq M 1 := by
      simp [fitCandidate, maxSeq]
    rw [fitSearchSt_succ_inr 0 (fitStep_break (by rw [hc]; exact hfit)
      (by show (5:ℚ) - M ≤ 1 / 4; linarith))]
    rw [hc]
    rfl
  | succ n ih =>
    intro M hM hbefore hfit
    have hc : fitCandidate (FitState.mk 5 M) = maxSeq M 1 := by
      simp [fitCandidate, maxSeq]
    have h0 : fitTooBig L a mh (maxSeq M 1) := hbefore 0 (Nat.succ_pos n)
    rw [fitSearchSt_succ_inl (n + 1) (fitStep_too_big (by rw [hc]; exact h0))]
    rw [show (FitState.mk (FitState.mk 5 M).min (fitCandidate (FitState.mk 5 M))) =
      FitState.mk 5 (maxSeq M 1) by rw [hc]]
    have h := ih (maxSeq M 1) (maxSeq_gt_five M hM 1)
      (fun m hm => by rw [maxSeq_shift]; exact hbefore (m + 1) (by omega))
      (by rw [maxSeq_shift]; exact hfit)
    rw [h, maxSeq_shift, maxSeq_shift]

theorem absMaxLines_hi : absMaxLines ['h', 'i'] = 1 := by decide

/-- C1 (amended): with min_size = 5 < max_size = M, the Fit-Search loop of
`get_filling_glyphs` terminates exactly when some candidate of the sequence
`maxSeq M (n+1)` (the candidates converge towards 2 * min_size = 10)
satisfies the line-count and height constraints; it then returns at the
first such candidate, after exactly n + 1 iterations. When no candidate
satisfies the constraints the loop does not terminate (see the
counterexample theorem). -/
theorem getFillingGlyphs_terminates_at_first_fit (L : LayoutOracle)
    (size : ℕ × ℕ) (text : List Char) (M : ℚ) (n : ℕ) (hM : 5 < M)
    (hbefore : ∀ m, m < n →
      fitTooBig L (absMaxLines text) (size.2 : ℚ) (maxSeq M (m + 1)))
    (hfit : ¬ fitTooBig L (absMaxLines text) (size.2 : ℚ) (maxSeq M (n + 1))) :
    getFillingGlyphs L size 5 M text (n + 1) = some (maxSeq M (n + 1)) := by
  unfold getFillingGlyphs
  rw [fitSearchSt_first_fit L (absMaxLines text) (size.2 : ℚ) n M hM hbefore hfit]
  rfl

theorem getFillingGlyphs_terminates_at_first_fit_witness :
    getFillingGlyphs oracleFits (100, 50) 5 600 ['h', 'i'] 1 = some 305 := by
  have h := getFillingGlyphs_terminates_at_first_fit oracleFits (100, 50)
    ['h', 'i'] 600 0 (by norm_num)
    (fun m hm => absurd hm (Nat.not_lt_zero m))
    (by simp only [fitTooBig, oracleFits, absMaxLines_hi]; norm_num)
  norm_num [maxSeq] at h
  exact h

/-- C1 counterexample: a zero-height slot (`bb.max.1 = bb.min.1`, giving
`max_height = 0`) with nonempty text makes every candidate oversize, and the
loop of `get_filling_glyphs` has not returned after a million iterations —
far beyond any O(log((max_size - 5) / 0.25)) bound (about 12 for
max_size = 600). The claim that the search still terminates when no
candidate satisfies the constraints is false. -/
theorem getFillingGlyphs_no_fit_diverges :
    getFillingGlyphs oracleTall (100, 0) 5 600 ['h', 'i'] 1000000 = none := by
  have hall : ∀ c, fitTooBig oracleTall (absMaxLines ['h', 'i'])
      (((100, 0) : ℕ × ℕ).2 : ℚ) c := by
    intro c
    simp only [fitTooBig, oracleTall]
    norm_num
  unfold getFillingGlyphs
  rw [fitSearchSt_none_of_all_too_big _ _ _ hall]
  rfl

/-- C2 (amended): whenever Fit-Search returns, the font size it returns
satisfies min_size = 5 ≤ s ≤ max(max_size, 10); when max_size ≥ 10 = 2 *
min_size this gives min_size ≤ s ≤ max_size, but for 5 < max_size < 10 the
returned size can exceed max_size (see the counterexample theorem). -/
theorem getFillingGlyphs_returned_size_bounds (L : LayoutOracle)
    (size : ℕ × ℕ) (text : List Char) (M : ℚ) (fuel : ℕ) (c : ℚ)
    (hM : 5 < M) (h : getFillingGlyphs L size 5 M text fuel = some c) :
    5 ≤ c ∧ c ≤ max M 10 ∧ (10 ≤ M → c ≤ M) := by
  unfold getFillingGlyphs at h
  cases hp : fitSearchSt L (absMaxLines text) (size.2 : ℚ) fuel
      (FitState.mk 5 M) with
  | none => rw [hp] at h; simp at h
  | some p =>
    rw [hp] at h
    simp only [Option.map_some', Option.some.injEq] at h
    obtain ⟨h1, h2, h3, h4⟩ := fitSearchSt_inv L (absMaxLines text)
      (size.2 : ℚ) (max M 10) (le_max_right M 10) fuel (FitState.mk 5 M) p
      rfl (le_of_lt hM) (le_max_left M 10) hp
    subst h
    rw [h4]
    have h10 : (10:ℚ) ≤ max M 10 := le_max_right M 10
    refine ⟨by linarith, by linarith, ?_⟩
    intro hge
    have hm : max M 10 = M := max_eq_left hge
    rw [hm] at h3
    linarith

theorem getFillingGlyphs_returned_size_bounds_witness :
    ((5:ℚ) < 600) ∧ ((5:ℚ) ≤ 305 ∧ (305:ℚ) ≤ max 600 10 ∧
      ((10:ℚ) ≤ 600 → (305:ℚ) ≤ 600)) := by
  constructor
  · norm_num
  · refine getFillingGlyphs_returned_size_bounds oracleFits (100, 50)
      ['h', 'i'] 600 1 305 (by norm_num) ?_
    have h := fitSearchSt_first_fit oracleFits (absMaxLines ['h', 'i'])
      (((100, 50) : ℕ × ℕ).2 : ℚ) 0 600 (by norm_num)
      (fun m hm => absurd hm (Nat.not_lt_zero m))
      (by simp only [fitTooBig, oracleFits, absMaxLines_hi]; norm_num)
    unfold getFillingGlyphs
    rw [h]
    norm_num [maxSeq]

/-- C2 counterexample: with max_size = 6 and a box the text fits at once,
the very first candidate `5 + 6 / 2 = 8` is returned, and `8 > 6 =
max_size`: the returned size does not satisfy `s ≤ max_size`. -/
theorem getFillingGlyphs_can_exceed_max_size :
    getFillingGlyphs oracleFits (100, 50) 5 6 ['h', 'i'] 1 = some 8 ∧
      ¬ ((8:ℚ) ≤ 6) := by
  constructor
  · have h := fitSearchSt_first_fit oracleFits (absMaxLines ['h', 'i'])
      (((100, 50) : ℕ × ℕ).2 : ℚ) 0 6 (by norm_num)
      (fun m hm => absurd hm (Nat.not_lt_zero m))
      (by simp only [fitTooBig, oracleFits, absMaxLines_hi]; norm_num)
    unfold getFillingGlyphs
    rw [h]
    norm_num [maxSeq]
  · norm_num

/-- C3 (amended): at the moment the loop breaks, the test `min - max ≤
0.25` holds and indeed `min ≤ max`; but `|min - max| ≤ 0.25` need not hold:
because `min ≤ max` throughout the run, the test is satisfied at every
evaluation, so the loop breaks at the first fitting candidate however wide
the bracket still is (see the counterexample theorem). -/
theorem fitSearch_break_test_always_holds (L : LayoutOracle) (a : ℕ)
    (mh M : ℚ) (fuel : ℕ) (p : FitState × ℚ) (hM : 5 < M)
    (h : fitSearchSt L a mh fuel (FitState.mk 5 M) = some p) :
    p.1.min - p.1.max ≤ 1 / 4 ∧ p.1.min ≤ p.1.max := by
  obtain ⟨h1, h2, h3, _⟩ := fitSearchSt_inv L a mh (max M 10)
    (le_max_right M 10) fuel (FitState.mk 5 M) p rfl (le_of_lt hM)
    (le_max_left M 10) h
  constructor <;> rw [h1] <;> linarith

theorem fitSearch_break_test_always_holds_witness :
    ((5:ℚ) - 600 ≤ 1 / 4) ∧ ((5:ℚ) ≤ 600) := by
  refine fitSearch_break_test_always_holds oracleFits 1 50 600 1
    (FitState.mk 5 600, 305) (by norm_num) ?_
  have hfit : ¬ fitTooBig oracleFits 1 50 (fitCandidate (FitState.mk 5 600)) := by
    simp only [fitTooBig, oracleFits]
    norm_num
  rw [fitSearchSt_succ_inr 0 (fitStep_break hfit
    (by show (5:ℚ) - 600 ≤ 1 / 4; norm_num))]
  norm_num [fitCandidate]

/-- C3 counterexample: the loop can break while the bracket is still 595
wide: from (min, max) = (5, 600), the first candidate 305 fits, the test
`5 - 600 ≤ 0.25` succeeds, and the loop returns with `|min - max| = 595 >
0.25`. -/
theorem fitSearch_break_bracket_wide :
    fitSearchSt oracleFits 1 50 1 (FitState.mk 5 600) =
        some (FitState.mk 5 600, 305) ∧
      ¬ (|(FitState.mk (5:ℚ) 600).min - (FitState.mk (5:ℚ) 600).max| ≤ 1 / 4) := by
  constructor
  · have hfit : ¬ fitTooBig oracleFits 1 50 (fitCandidate (FitState.mk 5 600)) := by
      simp only [fitTooBig, oracleFits]
      norm_num
    rw [fitSearchSt_succ_inr 0 (fitStep_break hfit
      (by show (5:ℚ) - 600 ≤ 1 / 4; norm_num))]
    norm_num [fitCandidate]
  · show ¬ (|(5:ℚ) - 600| ≤ 1 / 4)
    rw [abs_sub_comm, abs_of_nonneg (by norm_num : (0:ℚ) ≤ 600 - 5)]
    norm_num

/-- C7: at every state the loop can reach from (min, max) = (5, max_size),
the candidate px size at which the text is laid out is exactly
`min + max / 2`, and this differs from the arithmetic mean `(min + max) / 2`
(by `min / 2 = 2.5`, since `min` stays 5). -/
theorem fitCandidate_formula_at_reachable_states (L : LayoutOracle) (a : ℕ)
    (mh M : ℚ) (n : ℕ) (s : FitState) (hM : 5 < M)
    (h : fitStates L a mh (FitState.mk 5 M) n = some s) :
    fitCandidate s = s.min + s.max / 2 ∧
      fitCandidate s ≠ (s.min + s.max) / 2 := by
  obtain ⟨h1, h2⟩ := fitStates_inv L a mh n (FitState.mk 5 M) s rfl
    (le_of_lt hM) h
  refine ⟨rfl, ?_⟩
  show s.min + s.max / 2 ≠ (s.min + s.max) / 2
  rw [h1]
  intro hc
  linarith

theorem fitCandidate_formula_witness :
    fitCandidate (FitState.mk 5 600) = 5 + 600 / 2 ∧
      fitCandidate (FitState.mk 5 600) ≠ ((5:ℚ) + 600) / 2 :=
  fitCandidate_formula_at_reachable_states oracleFits 1 50 600 0
    (FitState.mk 5 600) (by norm_num) rfl

theorem rustSplit_ne_nil (p : Char → Bool) : ∀ l, rustSplit p l ≠ [] := by
  intro l
  cases l with
  | nil => simp [rustSplit]
  | cons c rest =>
    by_cases hc : p c
    · simp [rustSplit, hc]
    · cases hs : rustSplit p rest with
      | nil => simp [rustSplit, hc, hs]
      | cons f fs => simp [rustSplit, hc, hs]

theorem rustSplit_length (p : Char → Bool) :
    ∀ l, (rustSplit p l).length = l.countP p + 1 := by
  intro l
  induction l with
  | nil => rfl
  | cons c rest ih =>
    by_cases hc : p c
    · simp [rustSplit, hc, List.countP_cons, ih]
    · cases hs : rustSplit p rest with
      | nil => exact absurd hs (rustSplit_ne_nil p rest)
      | cons f fs =>
        rw [hs] at ih
        simp [rustSplit, hc, hs, List.countP_cons] at ih ⊢
        omega

/-- C6 (amended): `abs_max_lines` is the fragment count of splitting the
text at every whitespace character, i.e. (number of whitespace characters)
+ 1 — not the whitespace-separated token count: the empty text yields 1,
and every consecutive, leading or trailing whitespace character adds a
fragment. -/
theorem absMaxLines_eq_whitespace_count_succ (text : List Char) :
    absMaxLines text = text.countP (fun c => c.isWhitespace) + 1 :=
  rustSplit_length Char.isWhitespace text

/-- C6 counterexample: `abs_max_lines` differs from the
whitespace-separated token count: the empty text has 0 tokens but
`abs_max_lines` 1, and a text with two consecutive separators between two
words has 2 tokens but `abs_max_lines` 3. -/
theorem absMaxLines_ne_token_count :
    absMaxLines [] = 1 ∧ specTokenCount [] = 0 ∧
      ¬ absMaxLines [] = specTokenCount [] ∧
      absMaxLines ['a', ' ', ' ', 'b'] = 3 ∧
      specTokenCount ['a', ' ', ' ', 'b'] = 2 := by
  decide

theorem overlayAt_preserves (mask : GrayImage) (color : ColorF)
    (pos : ℕ × ℕ) (w h x y : ℕ) (hxy : ¬ (x < w ∧ y < h)) :
    ∀ (im : RgbaImage) (mx my : ℕ), im.width = w → im.height = h →
      (overlayAt im mask color pos mx my).width = w ∧
      (overlayAt im mask color pos mx my).height = h ∧
      (overlayAt im mask color pos mx my).pix x y = im.pix x y := by
  intro im mx my hw hh
  simp only [overlayAt]
  split_ifs with hb
  · refine ⟨hw, hh, ?_⟩
    simp only [putPixel]
    rw [if_neg]
    intro hc
    exact hxy ⟨hc.1 ▸ hw ▸ hb.1, hc.2 ▸ hh ▸ hb.2⟩
  · exact ⟨hw, hh, rfl⟩

/-- C4: `simple_overlay` silently clips: whatever the mask, color and
origin — including origins that put the mask partly or wholly outside the
base image — the overlay never touches a coordinate outside the base
image's bounds: the dimensions are unchanged and the pixel value at every
out-of-bounds coordinate is unchanged. (In the model the arithmetic is
total — the `u32` target coordinates wrap as in release mode and every
image access is bounds-checked before use, so there is no panicking
path.) -/
theorem simpleOverlay_clips_to_bounds (img : RgbaImage) (mask : GrayImage)
    (color : ColorF) (pos : ℕ × ℕ) (x y : ℕ)
    (h : ¬ (x < img.width ∧ y < img.height)) :
    (simpleOverlay img mask color pos).width = img.width ∧
      (simpleOverlay img mask color pos).height = img.height ∧
      (simpleOverlay img mask color pos).pix x y = img.pix x y := by
  have hstep : ∀ (im : RgbaImage) (mx : ℕ),
      (im.width = img.width ∧ im.height = img.height ∧
        im.pix x y = img.pix x y) →
      (((List.range mask.height).foldl
          (fun im2 my => overlayAt im2 mask color pos mx my) im).width =
            img.width ∧
        ((List.range mask.height).foldl
          (fun im2 my => overlayAt im2 mask color pos mx my) im).height =
            img.height ∧
        ((List.range mask.height).foldl
          (fun im2 my => overlayAt im2 mask color pos mx my) im).pix x y =
            img.pix x y) := by
    intro im mx hQ
    refine foldl_preserve
      (fun im2 => im2.width = img.width ∧ im2.height = img.height ∧
        im2.pix x y = img.pix x y) _ ?_ (List.range mask.height) im hQ
    intro im2 my hQ2
    obtain ⟨hw2, hh2, hp2⟩ := overlayAt_preserves mask color pos img.width
      img.height x y h im2 mx my hQ2.1 hQ2.2.1
    exact ⟨hw2, hh2, hp2.trans hQ2.2.2⟩
  exact foldl_preserve
    (fun im2 => im2.width = img.width ∧ im2.height = img.height ∧
      im2.pix x y = img.pix x y) _ hstep (List.range mask.width) img
    ⟨rfl, rfl, rfl⟩

theorem simpleOverlay_clips_to_bounds_witness :
    (¬ ((5:ℕ) < cimg.width ∧ (0:ℕ) < cimg.height)) ∧
      ((simpleOverlay cimg cmaskFull (ColorF.mk 1 1 1 1) (1, 1)).width =
          cimg.width ∧
        (simpleOverlay cimg cmaskFull (ColorF.mk 1 1 1 1) (1, 1)).height =
          cimg.height ∧
        (simpleOverlay cimg cmaskFull (ColorF.mk 1 1 1 1) (1, 1)).pix 5 0 =
          cimg.pix 5 0) :=
  ⟨by decide, simpleOverlay_clips_to_bounds cimg cmaskFull
    (ColorF.mk 1 1 1 1) (1, 1) 5 0 (by decide)⟩

theorem putPixel_self (img : RgbaImage) (x y : ℕ) :
    putPixel img x y (img.pix x y) = img := by
  cases img with
  | mk w h p =>
    simp only [putPixel]
    congr 1
    funext u v
    split_ifs with huv
    · rw [huv.1, huv.2]
    · rfl

theorem blendByte_zero (n : ℕ) (hn : n ≤ 255) (c : ℚ) :
    blendByte 0 n c = n := by
  unfold blendByte blendChannel toU8
  rw [show ((1:ℚ) - 0) * ((n:ℚ) / 255) + 0 * c = (n:ℚ) / 255 by ring]
  rw [show ((n:ℚ) / 255) * 255 = (n:ℚ) by field_simp]
  rw [Int.floor_natCast]
  rw [min_eq_right (by exact_mod_cast hn)]
  exact Int.toNat_natCast n

theorem overlayAt_zero_mask (img : RgbaImage) (mask : GrayImage)
    (color : ColorF) (pos : ℕ × ℕ) (x y : ℕ) (hm : mask.pix x y = 0)
    (hwf : img.wf) : overlayAt img mask color pos x y = img := by
  simp only [overlayAt, hm, Nat.cast_zero, zero_div]
  split_ifs with hb
  · obtain ⟨h1, h2, h3, h4⟩ :=
      hwf (wrap32 (pos.1 + x)) (wrap32 (pos.2 + y))
    rw [blendByte_zero _ h1, blendByte_zero _ h2, blendByte_zero _ h3,
      blendByte_zero _ h4]
    exact putPixel_self img (wrap32 (pos.1 + x)) (wrap32 (pos.2 + y))
  · rfl

/-- C5: overlaying an all-zero coverage mask is the identity on the base
image, whatever the color and origin: at coverage 0 the blend
`(1 - 0) * base + 0 * color` returns the normalized base channel, scaling
by 255 and truncating returns the original byte (this float path is exact
in `f32` too), and the pixel write stores back the previous value. -/
theorem simpleOverlay_zero_mask_identity (img : RgbaImage)
    (mask : GrayImage) (color : ColorF) (pos : ℕ × ℕ)
    (hm : ∀ x y, mask.pix x y = 0) (hwf : img.wf) :
    simpleOverlay img mask color pos = img := by
  have hstep : ∀ (im : RgbaImage) (mx : ℕ), im = img →
      (List.range mask.height).foldl
        (fun im2 my => overlayAt im2 mask color pos mx my) im = img := by
    intro im mx hQ
    refine foldl_preserve (fun im2 => im2 = img) _ ?_ (List.range mask.height)
      im hQ
    intro im2 my hQ2
    rw [hQ2]
    exact overlayAt_zero_mask img mask color pos mx my (hm mx my) hwf
  exact foldl_preserve (fun im2 => im2 = img) _ hstep (List.range mask.width)
    img rfl

theorem simpleOverlay_zero_mask_identity_witness :
    simpleOverlay cimg cmaskZero (ColorF.mk 1 0 1 1) (1, 1) = cimg :=
  simpleOverlay_zero_mask_identity cimg cmaskZero (ColorF.mk 1 0 1 1) (1, 1)
    (fun _ _ => rfl) (fun _ _ => by norm_num [cimg])

theorem zip_take_min {α β : Type _} :
    ∀ (l1 : List α) (l2 : List β),
      l1.zip l2 = (l1.take (min l1.length l2.length)).zip
        (l2.take (min l1.length l2.length)) := by
  intro l1
  induction l1 with
  | nil => intro l2; simp
  | cons a t ih =>
    intro l2
    cases l2 with
    | nil => simp
    | cons b u =>
      simp only [List.length_cons, Nat.succ_min_succ, List.take_succ_cons,
        List.zip_cons_cons]
      rw [← ih u]

theorem zip_getElem? {α β : Type _} :
    ∀ (l1 : List α) (l2 : List β) (i : ℕ),
      (l1.zip l2)[i]? =
        Option.bind l1[i]? (fun a => Option.map (fun b => (a, b)) l2[i]?) := by
  intro l1
  induction l1 with
  | nil => intro l2 i; simp
  | cons a t ih =>
    intro l2 i
    cases l2 with
    | nil => simp
    | cons b u =>
      cases i with
      | zero => simp
      | succ i => simp [ih]

/-- C8: `SimpleMemeTemplate::render` pairs content items with slots by
`zip`, so it processes exactly min(content count, slot count) pairs, the
i-th content item with the i-th slot; content items beyond the slot count
and slots beyond the content count are silently unused — rendering with
both lists truncated to that length yields the same image. -/
theorem simpleRender_processes_zip_pairs
    (renderText : ℕ × ℕ → List Char → GrayImage)
    (renderWatermark : ℕ × ℕ → List Char → GrayImage × ℕ)
    (img : RgbaImage) (col : Option ColorF) (slots : List MemeText)
    (texts : List (List Char)) (wm : Option (List Char)) :
    (texts.zip slots).length = min texts.length slots.length ∧
      (∀ (i : ℕ), (texts.zip slots)[i]? =
        Option.bind (texts[i]? : Option (List Char))
          (fun t => Option.map (fun s => (t, s)) (slots[i]? : Option MemeText))) ∧
      SimpleMemeTemplate.render
          (SimpleMemeTemplate.mk img (MemeConfig.mk col slots))
          renderText renderWatermark texts wm =
        SimpleMemeTemplate.render
          (SimpleMemeTemplate.mk img (MemeConfig.mk col
            (slots.take (min texts.length slots.length))))
          renderText renderWatermark
          (texts.take (min texts.length slots.length)) wm := by
  refine ⟨List.length_zip texts slots, fun i => zip_getElem? texts slots i, ?_⟩
  unfold SimpleMemeTemplate.render
  rw [← zip_take_min texts slots]

/-- C9: `AnimatedMemeTemplate::render` computes the Fit-Search text masks
once, before the frame loop, and overlays those same masks at the same
positions onto every frame; since the mask computation depends only on the
slot and the text — not on the frame — the result is frame-for-frame equal
to re-running the whole text pass independently for every frame. -/
theorem animatedRender_reuses_fit_search (tpl : AnimatedMemeTemplate)
    (renderText : ℕ × ℕ → List Char → GrayImage)
    (renderWatermark : ℕ × ℕ → List Char → GrayImage × ℕ)
    (texts : List (List Char)) (wm : Option (List Char)) :
    AnimatedMemeTemplate.render tpl renderText renderWatermark texts wm =
      AnimatedMemeTemplate.renderPerFrame tpl renderText renderWatermark
        texts wm := by
  rfl

/-- C10: when the template's configured color is absent, both renders use
the fallback `[0., 0., 0., 1.]` — opaque black — for every text-slot
overlay and for the watermark overlay. -/
theorem render_missing_color_is_opaque_black (stpl : SimpleMemeTemplate)
    (atpl : AnimatedMemeTemplate)
    (renderText : ℕ × ℕ → List Char → GrayImage)
    (renderWatermark : ℕ × ℕ → List Char → GrayImage × ℕ)
    (texts : List (List Char)) (wm : Option (List Char))
    (hs : stpl.config.color = none) (ha : atpl.config.color = none) :
    stpl.render renderText renderWatermark texts wm =
        stpl.renderWithColor renderText renderWatermark (ColorF.mk 0 0 0 1)
          texts wm ∧
      atpl.render renderText renderWatermark texts wm =
        atpl.renderWithColor renderText renderWatermark (ColorF.mk 0 0 0 1)
          texts wm := by
  constructor
  · unfold SimpleMemeTemplate.render SimpleMemeTemplate.renderWithColor
    rw [hs]
    rfl
  · unfold AnimatedMemeTemplate.render AnimatedMemeTemplate.renderWithColor
    rw [ha]
    rfl

theorem render_missing_color_witness :
    cstpl.render crt crw [['h', 'i']] (some ['w']) =
        cstpl.renderWithColor crt crw (ColorF.mk 0 0 0 1) [['h', 'i']]
          (some ['w']) ∧
      catpl.render crt crw [['h', 'i']] (some ['w']) =
        catpl.renderWithColor crt crw (ColorF.mk 0 0 0 1) [['h', 'i']]
          (some ['w']) :=
  render_missing_color_is_opaque_black cstpl catpl crt crw [['h', 'i']]
    (some ['w']) rfl rfl

